import Mathlib

/-!
# Verification of the semantic HTML-to-deck layout core (`tools/html2pptx_v2.py`)

A shallow embedding, in Lean 4, of the pure layout/extraction logic of
`HTMLToPPTXConverterV2` and its module-level helpers.  Python strings are
modelled as `List Char`, colors as the 24-bit integer value carried by
`pptx`'s `RGBColor` (a subclass of `int`, so `if rgb:` is false both for
`None` and for pure black `0x000000`), geometry in inches as `ℚ`, and the
EMU coordinates used by the overflow compressor as `ℤ`.

Modelling notes, for the reader who diffs against the source:
* Python's `str.strip`/`lstrip`/`rstrip` whitespace classes are modelled by
  `Char.isWhitespace` (space, tab, CR, LF); Python additionally strips
  `\x0b`/`\x0c` and Unicode spaces, which no statement below exercises.
* `int(s, 16)` on the two-character slices of `hex_to_rgb` is modelled as
  requiring two hex digits.  Python's `int` additionally tolerates
  surrounding whitespace and a sign inside the slice; no claim below
  touches such inputs, and every failure mode still yields `none`
  (the `except (ValueError, TypeError)` branch), never an exception.
* `Inches(x)` is `int(x * 914400)` on floats; the constants below use the
  exact products (`Inches(5.625) = 5143500`, `Inches(0.3) = 274320`,
  `Inches(0.1) = 91440`); float truncation can differ from the exact
  rational by at most one EMU, immaterial to every statement proved.
* Python dicts (`css_vars`, the resolved color table) are modelled as
  association lists looked up by first match; `extract_css_vars` returns a
  dict, so its keys are distinct and first-match lookup agrees with it.
-/

namespace Html2Pptx

/-! ## Python string primitives over `List Char` -/

/-- `str.lstrip()`: drop leading whitespace. -/
def pyLstrip (l : List Char) : List Char := l.dropWhile Char.isWhitespace

/-- `str.rstrip()`: drop trailing whitespace. -/
def pyRstrip (l : List Char) : List Char :=
  (l.reverse.dropWhile Char.isWhitespace).reverse

/-- `str.strip()`: drop whitespace on both ends. -/
def pyStrip (l : List Char) : List Char := pyRstrip (pyLstrip l)

/-! ## Colors

`RGBColor(r, g, b)` is an `int` subclass holding `r*65536 + g*256 + b`;
we model a color as that `ℕ`.  Python truthiness of an optional color
(`if rgb:`) is false for `None` and for the zero (black) color. -/

def MS_BLUE : ℕ := 0x0078D4
def MS_CYAN : ℕ := 0x50E6FF
def MS_GREEN : ℕ := 0x00CC6A
def MS_ORANGE : ℕ := 0xFF9F0A
def MS_RED : ℕ := 0xFF453A
def WHITE : ℕ := 0xFFFFFF
def GRAY_70 : ℕ := 0xB3B3B3
def GRAY_50 : ℕ := 0x808080
def CODE_DEFAULT : ℕ := 0xE6E6E6

/-- Python truthiness of `Optional[RGBColor]` (`RGBColor` is an `int`). -/
def truthy : Option ℕ → Bool
  | none => false
  | some v => v ≠ 0

/-- Python `c or d` on an optional color (used as `color or WHITE`). -/
def pyColorOr (c : Option ℕ) (d : ℕ) : ℕ :=
  if truthy c then c.getD d else d

/-! ## `hex_to_rgb` -/

/-- Value of one hex digit, `none` for any other character. -/
def hexDigitVal (c : Char) : Option ℕ :=
  if '0' ≤ c ∧ c ≤ '9' then some (c.toNat - '0'.toNat)
  else if 'a' ≤ c ∧ c ≤ 'f' then some (c.toNat - 'a'.toNat + 10)
  else if 'A' ≤ c ∧ c ≤ 'F' then some (c.toNat - 'A'.toNat + 10)
  else none

/-- `int(s, 16)` on a two-character slice (see modelling notes). -/
def hexPair (a b : Char) : Option ℕ := do
  let x ← hexDigitVal a
  let y ← hexDigitVal b
  pure (16 * x + y)

/-- Parse the six remaining characters into the 24-bit `RGBColor` value;
any other shape (including wrong length) is the `return None` /
`except` path of `hex_to_rgb`. -/
def parseHex6 : List Char → Option ℕ
  | [a, b, c, d, e, f] => do
    let r ← hexPair a b
    let g ← hexPair c d
    let bl ← hexPair e f
    pure (r * 65536 + g * 256 + bl)
  | _ => none

/-- `hex_to_rgb` (src/tools/html2pptx_v2.py:79-90): strip whitespace,
strip leading `#`s, double a 3-digit shorthand, then parse exactly six
hex digits; every failure returns `none`. -/
def hex_to_rgb (s : List Char) : Option ℕ :=
  let t := (pyStrip s).dropWhile (· = '#')
  let t := if t.length = 3 then t.flatMap (fun c => [c, c]) else t
  parseHex6 t

/-! ## Style resolver (`resolve_accent_color`, `_resolve_color_vars`)

`css_vars : dict[str, str]` is an association list of variable names to
raw values. -/

/-- One iteration of `resolve_accent_color`'s loop body for a variable
name: the parsed value when it starts with `#` and parses to a truthy
`RGBColor` (`if val.startswith("#") ... if rgb: return rgb`), else
`none`. -/
def tryAccentVar (cssVars : List (String × List Char)) (vn : String) : Option ℕ :=
  let val := (List.lookup vn cssVars).getD []
  if val.head? = some '#' ∧ truthy (hex_to_rgb val) then hex_to_rgb val
  else none

/-- `resolve_accent_color` (lines 100-107 region): try `--color-accent`
then `--accent`, falling back to `MS_BLUE`. -/
def resolve_accent_color (cssVars : List (String × List Char)) : ℕ :=
  match tryAccentVar cssVars "color-accent" with
  | some c => c
  | none =>
    match tryAccentVar cssVars "accent" with
    | some c => c
    | none => MS_BLUE

/-- The `color_keywords` table of `_resolve_color_vars`, parameterised by
the already-resolved accent color. -/
def colorKeywords (accent : ℕ) : List (String × ℕ) :=
  [("blue", MS_BLUE), ("success", MS_GREEN), ("warning", MS_ORANGE),
   ("danger", MS_RED), ("accent", accent), ("text", WHITE), ("muted", GRAY_70)]

/-- First loop of `_resolve_color_vars`: for each declared variable, a
parsable truthy `#`-value is taken verbatim, otherwise a recognised
keyword name gets its built-in color; anything else is skipped.
Entries are appended in iteration order (modelled as cons onto the
recursive result, which builds the same left-to-right list). -/
def resolveVarsLoop (accent : ℕ) : List (String × List Char) → List (String × ℕ)
  | [] => []
  | (n, v) :: rest =>
    if v.head? = some '#' then
      if truthy (hex_to_rgb v) then
        (n, (hex_to_rgb v).getD 0) :: resolveVarsLoop accent rest
      else resolveVarsLoop accent rest
    else
      if (List.lookup n (colorKeywords accent)).isSome then
        (n, (List.lookup n (colorKeywords accent)).getD 0) ::
          resolveVarsLoop accent rest
      else resolveVarsLoop accent rest

/-- Second loop of `_resolve_color_vars`: append a built-in default for
every standard keyword not already present. -/
def addKeywordDefaults (res : List (String × ℕ)) : List (String × ℕ) → List (String × ℕ)
  | [] => res
  | (kw, c) :: rest =>
    addKeywordDefaults
      (if List.lookup kw res = none then res ++ [(kw, c)] else res) rest

/-- `_resolve_color_vars` (src/tools/html2pptx_v2.py:548-570). -/
def resolve_color_vars (cssVars : List (String × List Char)) (accent : ℕ) :
    List (String × ℕ) :=
  addKeywordDefaults (resolveVarsLoop accent cssVars) (colorKeywords accent)

/-! ## `_split_bullet_lines` and `_handle_feature_list` -/

/-- `_split_bullet_lines` (src/tools/html2pptx_v2.py:439-455): split on
newlines, strip each line, skip empties, and color lines led by a check
or cross glyph. -/
def split_bullet_lines (text : List Char) : List (List Char × Option ℕ) :=
  (text.splitOn '\n').filterMap fun line =>
    let l := pyStrip line
    if l = [] then none
    else some (l,
      if l.head? = some '✓' then some MS_GREEN
      else if l.head? = some '✗' then some MS_RED
      else none)

/-- A rendered paragraph: its text and the (resolved) font color. -/
structure Para where
  text : List Char
  color : ℕ
deriving DecidableEq, Repr

/-- `_handle_feature_list` (src/tools/html2pptx_v2.py:1757-1799),
parameterised by the texts of the `<li>` items (`liTexts`) and the
element's flattened text used by the no-`<li>` fallback.  Returns the
paragraphs of the emitted text frame and the advanced cursor. -/
def handle_feature_list (liTexts : List (List Char)) (elText : List Char)
    (t : ℚ) : List Para × ℚ :=
  let items_text : List (List Char × Option ℕ) :=
    if liTexts = [] then
      (elText.splitOn '\n').filterMap fun ln =>
        let s := pyStrip ln
        if s = [] then none else some (s, none)
    else
      liTexts.map fun txt =>
        (txt,
          if txt.contains '✓' then some MS_GREEN
          else if txt.contains '✗' then some MS_RED
          else none)
  if liTexts = [] ∧ elText = [] then ([], t)
  else
    let n : ℚ := items_text.length
    let height := max 0.5 (n * 0.35)
    (items_text.map fun pr => ⟨pr.1, pyColorOr pr.2 WHITE⟩, t + height + 0.12)

/-! ## Rich-run merging (`get_rich_text`, src/tools/html2pptx_v2.py:161-176)

A `RichRun` is `{text, bold, italic, color}`.  `get_rich_text` collects
runs and then (a) concatenates adjacent runs with identical formatting
into the last accumulated run, (b) left-strips the first merged run,
right-strips the last, and drops runs left empty. -/

structure RichRun where
  text : List Char
  bold : Bool
  italic : Bool
  color : Option ℕ
deriving DecidableEq, Repr

/-- The formatting triple compared by the merge loop. -/
def RichRun.fmt (r : RichRun) : Bool × Bool × Option ℕ := (r.bold, r.italic, r.color)

/-- The accumulator loop of `get_rich_text`'s merge step; `acc` holds the
already-merged runs in reverse, so `acc.head?` is `merged[-1]`. -/
def mergeLoop (acc : List RichRun) : List RichRun → List RichRun
  | [] => acc.reverse
  | r :: rs =>
    match acc with
    | [] => mergeLoop [r] rs
    | a :: acc' =>
      if a.fmt = r.fmt then
        mergeLoop ({ a with text := a.text ++ r.text } :: acc') rs
      else
        mergeLoop (r :: a :: acc') rs

/-- Front-recursive formulation of the same merge, convenient for
proofs; `mergeLoop_eq_mergeAdj` shows it computes the loop's result. -/
def mergeAdj : List RichRun → List RichRun
  | [] => []
  | [r] => [r]
  | r :: s :: rs =>
    if r.fmt = s.fmt then mergeAdj ({ r with text := r.text ++ s.text } :: rs)
    else r :: mergeAdj (s :: rs)
termination_by l => l.length

/-- `merged[0]["text"] = merged[0]["text"].lstrip()`. -/
def lstripRun (r : RichRun) : RichRun := { r with text := pyLstrip r.text }

/-- `merged[-1]["text"] = merged[-1]["text"].rstrip()`. -/
def rstripRun (r : RichRun) : RichRun := { r with text := pyRstrip r.text }

/-- Apply a function to the last element of a list. -/
def modifyLastRun (f : RichRun → RichRun) : List RichRun → List RichRun
  | [] => []
  | [r] => [f r]
  | r :: s :: rs => r :: modifyLastRun f (s :: rs)

/-- The merge step of `get_rich_text`: merge adjacent equal-format runs,
trim the first run's leading and the last run's trailing whitespace,
drop runs left empty.  (On an empty merge result every stage is the
identity, matching the guarding `if merged:`.) -/
def mergeRuns (rs : List RichRun) : List RichRun :=
  let merged := mergeLoop [] rs
  (modifyLastRun rstripRun (merged.modifyHead lstripRun)).filter
    (fun r => r.text ≠ [])

/-! ## Geometry, in inches (`ℚ`), and the element handlers the claims cite -/

def SLIDE_HEIGHT : ℚ := 5.625
def CONTENT_LEFT : ℚ := 0.8
def CONTENT_WIDTH : ℚ := 8.4
def GAP_TIGHT : ℚ := 0.08
def GAP_NORMAL : ℚ := 0.12
def GAP_SECTION : ℚ := 0.25

/-- An absolutely positioned shape (text frame or filled shape). -/
structure Shape where
  left : ℚ
  top : ℚ
  width : ℚ
  height : ℚ
deriving DecidableEq, Repr

/-- `_handle_title_meta` (src/tools/html2pptx_v2.py:2328-2339): empty
text is a no-op; otherwise place a 0.3-high frame at
`max(current_top, 4.5)` and return `top + 0.35`. -/
def handle_title_meta (text : List Char) (t : ℚ) : List Shape × ℚ :=
  if text = [] then ([], t)
  else
    let top := max t 4.5
    ([⟨CONTENT_LEFT, top, CONTENT_WIDTH, 0.3⟩], top + 0.35)

/-- `_handle_highlight_box` (src/tools/html2pptx_v2.py:2341-2405):
geometry and returned cursor.  In the source, the box top is
`min(current_top, SLIDE_HEIGHT - 0.85)` and the return value
`top + 0.8 + GAP_NORMAL`; neither depends on the element's content
(the paragraph construction, which does, is not needed by any claim
and is omitted here). -/
def handle_highlight_box (t : ℚ) : Shape × ℚ :=
  let top := min t (SLIDE_HEIGHT - 0.85)
  (⟨CONTENT_LEFT, top, CONTENT_WIDTH, 0.7⟩, top + 0.8 + GAP_NORMAL)

/-! ## `_make_card_frame` and `_handle_standalone_card` -/

/-- The bullet glyphs of `BULLET_CHARS`. -/
def bulletChars : List Char := ['•', '-', '*', '✓', '✗', '→']

/-- The content bundle `_extract_card_content` produces for a card. -/
structure CardData where
  title : List Char
  body : List Char
  body_runs : Option (List RichRun)
deriving Repr

/-- `_make_card_frame` (src/tools/html2pptx_v2.py:458-528): always
creates the filled card shape; then adds a bold title paragraph when
the title is nonempty, and body paragraphs from rich runs, from
bullet-split lines, or from the plain body.  A rich-text paragraph is
modelled as one paragraph whose text is the concatenation of its runs
(per-run formatting inside a paragraph is not needed by any claim). -/
def make_card_frame (left top width min_height : ℚ) (title body : List Char)
    (title_color : ℕ) (body_color : ℕ) (accent_color : Option ℕ)
    (body_runs : Option (List RichRun)) : Shape × List Para :=
  let title_color := if truthy accent_color ∧ title_color = WHITE
    then accent_color.getD title_color else title_color
  let shape : Shape := ⟨left, top, width, min_height⟩
  let titleParas : List Para :=
    if title = [] then [] else [⟨title, title_color⟩]
  let bodyParas : List Para :=
    if (body_runs.getD []) ≠ [] then
      [⟨(body_runs.getD []).flatMap RichRun.text, body_color⟩]
    else if body ≠ [] then
      let bullet_lines := split_bullet_lines body
      if 1 < bullet_lines.length ∧
          bullet_lines.any (fun pr => ∃ c, (pyLstrip pr.1).head? = some c ∧ c ∈ bulletChars) then
        bullet_lines.map fun pr => ⟨pr.1, pyColorOr pr.2 body_color⟩
      else [⟨body, body_color⟩]
    else []
  (shape, titleParas ++ bodyParas)

/-- `_handle_standalone_card` (src/tools/html2pptx_v2.py:1366-1382):
unconditionally draws a card frame at the cursor and returns
`current_top + 1.5 + GAP_NORMAL`. -/
def handle_standalone_card (accent : ℕ) (card : CardData) (t : ℚ) :
    (Shape × List Para) × ℚ :=
  (make_card_frame CONTENT_LEFT t CONTENT_WIDTH 1.2 card.title card.body
      (pyColorOr none accent) GRAY_70 (some accent) card.body_runs,
    t + 1.5 + GAP_NORMAL)

/-! ## `_handle_code_block` -/

/-- A syntax-colored code run (`_extract_code_runs` output). -/
structure CodeRun where
  text : List Char
  color : ℕ
  bold : Bool
deriving DecidableEq, Repr

/-- The `while lines and not lines[-1].strip(): lines.pop()` loop. -/
def stripTrailingBlankLines (ls : List (List Char)) : List (List Char) :=
  (ls.reverse.dropWhile (fun l => pyStrip l = [])).reverse

/-- Output of the code-block handler. -/
structure CodeBlockOut where
  shapes : List Shape
  fontSize : Option ℕ
  cursor : ℚ
deriving Repr

/-- The fallback `runs = [{"text": text, ...}]` when `_extract_code_runs`
found nothing but the element has text. -/
def codeRunsOf (runs : List CodeRun) (elText : List Char) : List CodeRun :=
  if runs = [] then [⟨elText, CODE_DEFAULT, false⟩] else runs

/-- Line count after splitting the joined run text on newlines and
dropping trailing blank lines. -/
def codeNumLines (runs : List CodeRun) : ℕ :=
  (stripTrailingBlankLines ((runs.flatMap CodeRun.text).splitOn '\n')).length

/-- `height = min(4.5, max(1.0, num_lines * 0.18 + 0.3))`. -/
def codeEstHeight (n : ℕ) : ℚ := min 4.5 (max 1.0 ((n : ℚ) * 0.18 + 0.3))

/-- `available = SLIDE_HEIGHT - current_top - 0.15`, floored at 0.8. -/
def codeAvailable (t : ℚ) : ℚ :=
  if SLIDE_HEIGHT - t - 0.15 < 0.8 then 0.8 else SLIDE_HEIGHT - t - 0.15

/-- `if height > available: height = available`. -/
def codeHeight (n : ℕ) (t : ℚ) : ℚ :=
  if codeAvailable t < codeEstHeight n then codeAvailable t else codeEstHeight n

/-- `font_size = 9 if n > 25 else 10 if n > 18 else 11 if n > 12 else 12`. -/
def codeFontSize (n : ℕ) : ℕ :=
  if 25 < n then 9 else if 18 < n then 10 else if 12 < n then 11 else 12

/-- `_handle_code_block` (src/tools/html2pptx_v2.py:1443-1505): a no-op
when there are neither runs nor text; otherwise the estimated height is
clamped to the available space below the cursor and a background shape
plus a text shape are placed there. -/
def handle_code_block (runs : List CodeRun) (elText : List Char) (t : ℚ) :
    CodeBlockOut :=
  if runs = [] ∧ elText = [] then ⟨[], none, t⟩
  else
    let n := codeNumLines (codeRunsOf runs elText)
    let height := codeHeight n t
    ⟨[⟨CONTENT_LEFT, t, CONTENT_WIDTH, height⟩,
      ⟨CONTENT_LEFT + 0.05, t + 0.05, CONTENT_WIDTH - 0.1, height - 0.1⟩],
      some (codeFontSize n), t + height + GAP_NORMAL⟩

/-! ## Overflow compressor (`_compress_if_needed`)

Shape geometry here is in EMU (`ℤ`), as read back from the emitted
shapes; `Inches(x)` values are the exact products with 914400. -/

/-- A shape as seen by the compressor. -/
structure CShape where
  top : ℤ
  height : ℤ
  hasTable : Bool
deriving DecidableEq, Repr

def SLIDE_BOTTOM_EMU : ℤ := 5143500
def CONTENT_MIN_EMU : ℤ := 274320
def MARGIN_EMU : ℤ := 91440

/-- Python `max(iterable, default=d)` / `min(iterable, default=d)`. -/
def pyMaxD (d : ℤ) : List ℤ → ℤ
  | [] => d
  | x :: xs => xs.foldl max x

def pyMinD (d : ℤ) : List ℤ → ℤ
  | [] => d
  | x :: xs => xs.foldl min x

/-- Python `int()` on a rational: truncation toward zero. -/
def pyInt (q : ℚ) : ℤ := if q < 0 then ⌈q⌉ else ⌊q⌋

/-- `max((s.top + s.height for s in shapes), default=0)`. -/
def actualBottom (shapes : List CShape) : ℤ :=
  pyMaxD 0 (shapes.map fun s => s.top + s.height)

/-- `min((s.top for s in shapes if s.top >= Inches(0.3)), default=Inches(0.3))`. -/
def contentStartOf (shapes : List CShape) : ℤ :=
  pyMinD CONTENT_MIN_EMU
    ((shapes.filter fun s => CONTENT_MIN_EMU ≤ s.top).map CShape.top)

/-- The per-shape update of the compression loop. -/
def compressShape (cs : ℤ) (scale : ℚ) (s : CShape) : CShape :=
  if cs ≤ s.top then
    { top := cs + pyInt ((s.top - cs : ℤ) * scale),
      height := if s.hasTable then s.height else pyInt ((s.height : ℤ) * scale),
      hasTable := s.hasTable }
  else s

/-- The `scale = (usable - content_start) / content_height` of
`_compress_if_needed` (`usable = slide_bottom - Inches(0.1)`). -/
def rawScale (shapes : List CShape) : ℚ :=
  ((SLIDE_BOTTOM_EMU - MARGIN_EMU - contentStartOf shapes : ℤ) : ℚ) /
    ((actualBottom shapes - contentStartOf shapes : ℤ) : ℚ)

/-- The scale actually applied once the 0.40 floor is taken into
account. -/
def appliedScale (shapes : List CShape) : ℚ := max 0.40 (rawScale shapes)

/-- `_compress_if_needed` (src/tools/html2pptx_v2.py:2487-2529).
Returns the updated shapes and whether the severe-overflow warning
(tagged with the slide number by `warnMessage`) was appended. -/
def compress_if_needed (shapes : List CShape) : List CShape × Bool :=
  if shapes = [] then ([], false)
  else if actualBottom shapes ≤ SLIDE_BOTTOM_EMU then (shapes, false)
  else if actualBottom shapes - contentStartOf shapes ≤ 0 then (shapes, false)
  else if 1 ≤ rawScale shapes then (shapes, false)
  else if rawScale shapes < 0.40 then
    (shapes.map (compressShape (contentStartOf shapes) 0.40), true)
  else
    (shapes.map (compressShape (contentStartOf shapes) (rawScale shapes)), false)

/-- The warning string appended when the floor is hit. -/
def warnMessage (slide_num : ℕ) : String :=
  "Slide " ++ toString slide_num ++ ": severe overflow — content scaled to 40%"

/-! ## Slide tree, card-grid marking and the later passes (`process_slide`) -/

/-- A parsed markup element: identity, tag name, classes, children. -/
inductive Elem where
  | mk (eid : ℕ) (tag : String) (classes : List String) (children : List Elem)

def Elem.eid : Elem → ℕ
  | .mk i _ _ _ => i

def Elem.tag : Elem → String
  | .mk _ n _ _ => n

def Elem.classes : Elem → List String
  | .mk _ _ cls _ => cls

def Elem.children : Elem → List Elem
  | .mk _ _ _ cs => cs

/-- All strict descendants, in document order (`find_all(True)`). -/
def Elem.descendants : Elem → List Elem
  | .mk _ _ _ cs => cs.attach.flatMap fun ⟨c, _⟩ => c :: c.descendants

/-- The grid container classes of pass 9 of `process_slide`. -/
def gridClasses : List String :=
  ["thirds", "halves", "fourths", "grid", "grid-2", "grid-3", "grid-4",
   "grid-5", "tools-grid", "split"]

/-- The card classes of pass 10 of `process_slide`. -/
def cardClasses : List String := ["card", "module-card", "tool-card", "track-card"]

/-- The handled-set marking performed by `_handle_card_grid`
(src/tools/html2pptx_v2.py:1266-1278): every non-`style`/`script`
direct child of the grid container, and all of that child's
descendants, are added to `handled`. -/
def markCardGrid (g : Elem) (handled : List ℕ) : List ℕ :=
  (g.children.filter fun c => c.tag ≠ "style" && c.tag ≠ "script").foldl
    (fun h ch => h ++ ch.eid :: ch.descendants.map Elem.eid) handled

/-- Pass 10 of `process_slide` (src/tools/html2pptx_v2.py:2897-2910)
renders a card element standalone exactly when it is not yet handled
and its immediate parent carries no recognised grid class. -/
def standaloneRenders (c : Elem) (parentClasses : List String)
    (handled : List ℕ) : Prop :=
  c.eid ∉ handled ∧ ¬ ∃ cl ∈ parentClasses, cl ∈ gridClasses

/-- Pass 33 (final fallback) of `process_slide` renders a direct child
of the slide only if neither it nor any of its descendants is handled.
(The source additionally requires nonempty text of length ≥ 3; omitting
those conjuncts only makes this predicate easier to satisfy, so the
non-rendering facts proved below are a fortiori true of the source.) -/
def fallbackRenders (el : Elem) (handled : List ℕ) : Prop :=
  el.eid ∉ handled ∧ ∀ d ∈ el.descendants, d.eid ∉ handled

/-- A concrete 30-line code text (`"x\n" × 29 ++ "x"`), for C5. -/
def thirtyLines : List Char := (List.replicate 29 ['x', '\n']).flatten ++ ['x']

/-! ## Helper lemmas on Python string primitives -/

theorem dropWhile_append_all {α} (p : α → Bool) {l₁ l₂ : List α}
    (h : ∀ c ∈ l₁, p c) : (l₁ ++ l₂).dropWhile p = l₂.dropWhile p := by
  induction l₁ with
  | nil => simp
  | cons a l ih =>
    simp only [List.cons_append, List.dropWhile_cons, h a (by simp)]
    exact ih fun c hc => h c (by simp [hc])

theorem dropWhile_cons_of_neg {α} (p : α → Bool) {a : α} (l : List α)
    (h : ¬ p a) : (a :: l).dropWhile p = a :: l := by
  simp [List.dropWhile_cons, h]

theorem exists_mem_dropWhile {α} {p : α → Bool} {l : List α}
    (h : ∃ c ∈ l, ¬ p c) : ∃ c ∈ l.dropWhile p, ¬ p c := by
  induction l with
  | nil => exact h
  | cons a t ih =>
    by_cases ha : p a
    · rw [List.dropWhile_cons, if_pos ha]
      rcases h with ⟨c, hc, hpc⟩
      rcases List.mem_cons.mp hc with rfl | hct
      · exact absurd ha hpc
      · exact ih ⟨c, hct, hpc⟩
    · rw [dropWhile_cons_of_neg _ _ ha]
      exact h

theorem dropWhile_ne_nil_of_exists {α} {p : α → Bool} {l : List α}
    (h : ∃ c ∈ l, ¬ p c) : l.dropWhile p ≠ [] := by
  rcases exists_mem_dropWhile h with ⟨c, hc, -⟩
  exact fun hnil => by simp [hnil] at hc

theorem dropWhile_head_not {α} {p : α → Bool} {l : List α} {a : α} {t : List α}
    (h : l.dropWhile p = a :: t) : ¬ p a := by
  induction l with
  | nil => simp at h
  | cons b l ih =>
    by_cases hb : p b
    · rw [List.dropWhile_cons, if_pos hb] at h
      exact ih h
    · rw [dropWhile_cons_of_neg _ _ hb] at h
      cases h
      exact hb

theorem dropWhile_append_singleton {α} {p : α → Bool} {c : α} (hc : ¬ p c)
    (l : List α) : ∃ t, (l ++ [c]).dropWhile p = t ++ [c] := by
  induction l with
  | nil => exact ⟨[], by simp [dropWhile_cons_of_neg _ _ hc]⟩
  | cons a l ih =>
    by_cases ha : p a
    · simpa [List.dropWhile_cons, ha] using ih
    · exact ⟨a :: l, by simp [List.dropWhile_cons, ha]⟩

theorem pyLstrip_idem (l : List Char) : pyLstrip (pyLstrip l) = pyLstrip l := by
  unfold pyLstrip
  exact List.dropWhile_idempotent _ _

theorem pyRstrip_idem (l : List Char) : pyRstrip (pyRstrip l) = pyRstrip l := by
  simp [pyRstrip, List.dropWhile_idempotent]

theorem pyLstrip_cons_of_neg {c : Char} (t : List Char) (hc : ¬ c.isWhitespace) :
    pyLstrip (c :: t) = c :: t :=
  dropWhile_cons_of_neg _ _ hc

theorem pyRstrip_cons_of_head {c : Char} (t : List Char) (hc : ¬ c.isWhitespace) :
    ∃ t', pyRstrip (c :: t) = c :: t' := by
  unfold pyRstrip
  rcases dropWhile_append_singleton (p := Char.isWhitespace) hc t.reverse with ⟨u, hu⟩
  refine ⟨u.reverse, ?_⟩
  rw [show (c :: t).reverse = t.reverse ++ [c] by simp, hu]
  simp

theorem exists_mem_pyLstrip {l : List Char} (h : ∃ c ∈ l, ¬ c.isWhitespace) :
    ∃ c ∈ pyLstrip l, ¬ c.isWhitespace :=
  exists_mem_dropWhile h

theorem exists_mem_pyRstrip {l : List Char} (h : ∃ c ∈ l, ¬ c.isWhitespace) :
    ∃ c ∈ pyRstrip l, ¬ c.isWhitespace := by
  rcases h with ⟨c, hc, hpc⟩
  rcases exists_mem_dropWhile (l := l.reverse) ⟨c, by simpa using hc, hpc⟩
    with ⟨d, hd, hpd⟩
  exact ⟨d, by simpa [pyRstrip] using hd, hpd⟩

theorem pyLstrip_pyRstrip_pyLstrip {l : List Char}
    (h : ∃ c ∈ l, ¬ c.isWhitespace) :
    pyLstrip (pyRstrip (pyLstrip l)) = pyRstrip (pyLstrip l) := by
  rcases exists_mem_pyLstrip h with ⟨c, hc, hpc⟩
  rcases hl : pyLstrip l with _ | ⟨a, t⟩
  · simp [hl] at hc
  · have ha : ¬ a.isWhitespace := dropWhile_head_not (p := Char.isWhitespace) hl
    rcases pyRstrip_cons_of_head t ha with ⟨t', ht'⟩
    rw [ht', pyLstrip_cons_of_neg _ ha]

/-! ## C10: `hex_to_rgb` shorthand and length behaviour -/

theorem hexDigitVal_not_ws {c : Char} {v : ℕ} (h : hexDigitVal c = some v) :
    ¬ c.isWhitespace := by
  intro hw
  have h4 : ((c = ' ' ∨ c = '\t') ∨ c = '\x0d') ∨ c = '\n' := by
    simpa [Char.isWhitespace] using hw
  rcases h4 with ((rfl | rfl) | rfl) | rfl <;>
    rw [show hexDigitVal _ = none from by decide] at h <;> cases h

theorem hexDigitVal_ne_hash {c : Char} {v : ℕ} (h : hexDigitVal c = some v) :
    ¬ (c = '#') := by
  rintro rfl
  rw [show hexDigitVal '#' = none from by decide] at h
  cases h

theorem parseHex6_of_length_ne {t : List Char} (h : t.length ≠ 6) :
    parseHex6 t = none := by
  rcases t with _ | ⟨a, _ | ⟨b, _ | ⟨c, _ | ⟨d, _ | ⟨e, _ | ⟨f, _ | ⟨g, t⟩⟩⟩⟩⟩⟩⟩ <;>
    first
      | rfl
      | exact absurd rfl h

/-- The common core computation behind both C10 positive cases. -/
theorem pyStrip_sandwich {pre suf core : List Char} {a : Char} {t : List Char}
    (hcore : core = a :: t) (ha : ¬ a.isWhitespace)
    (hlast : ∃ z u, core = u ++ [z] ∧ ¬ z.isWhitespace)
    (hp : ∀ c ∈ pre, c.isWhitespace) (hs : ∀ c ∈ suf, c.isWhitespace) :
    pyStrip (pre ++ core ++ suf) = core := by
  subst hcore
  rcases hlast with ⟨z, u, hu, hz⟩
  have h1 : pyLstrip (pre ++ (a :: t) ++ suf) = (a :: t) ++ suf := by
    unfold pyLstrip
    rw [List.append_assoc, dropWhile_append_all _ (by simpa using hp),
      List.cons_append, dropWhile_cons_of_neg _ _ ha]
  show pyRstrip (pyLstrip (pre ++ (a :: t) ++ suf)) = a :: t
  rw [h1, hu]
  unfold pyRstrip
  rw [List.reverse_append, dropWhile_append_all _ (by simpa using hs),
    show (u ++ [z]).reverse = z :: u.reverse by simp,
    dropWhile_cons_of_neg _ _ hz]
  simp

/-- C10: `hex_to_rgb` accepts 3-digit shorthand: for three hex digits,
optionally prefixed with `#` and surrounded by whitespace, it returns
the color obtained by doubling each digit (byte `16*v + v` per digit);
and any input whose stripped, `#`-stripped form has a length other than
3 or 6 returns `none`. -/
theorem hex_to_rgb_shorthand_and_length :
    (∀ (pre suf : List Char) (d1 d2 d3 : Char) (v1 v2 v3 : ℕ),
      (∀ c ∈ pre, c.isWhitespace) → (∀ c ∈ suf, c.isWhitespace) →
      hexDigitVal d1 = some v1 → hexDigitVal d2 = some v2 →
      hexDigitVal d3 = some v3 →
      hex_to_rgb (pre ++ ('#' :: [d1, d2, d3]) ++ suf) =
        some ((16 * v1 + v1) * 65536 + (16 * v2 + v2) * 256 + (16 * v3 + v3)) ∧
      hex_to_rgb (pre ++ [d1, d2, d3] ++ suf) =
        some ((16 * v1 + v1) * 65536 + (16 * v2 + v2) * 256 + (16 * v3 + v3))) ∧
    (∀ s : List Char,
      ((pyStrip s).dropWhile (· = '#')).length ≠ 3 →
      ((pyStrip s).dropWhile (· = '#')).length ≠ 6 →
      hex_to_rgb s = none) := by
  constructor
  · intro pre suf d1 d2 d3 v1 v2 v3 hp hs h1 h2 h3
    have hw1 : ¬ d1.isWhitespace := hexDigitVal_not_ws h1
    have hw3 : ¬ d3.isWhitespace := hexDigitVal_not_ws h3
    have hd1 : d1 ≠ '#' := hexDigitVal_ne_hash h1
    have hs1 : pyStrip (pre ++ ('#' :: [d1, d2, d3]) ++ suf) =
        '#' :: [d1, d2, d3] :=
      pyStrip_sandwich rfl (by decide) ⟨d3, ['#', d1, d2], rfl, hw3⟩ hp hs
    have hs2 : pyStrip (pre ++ [d1, d2, d3] ++ suf) = [d1, d2, d3] :=
      pyStrip_sandwich rfl hw1 ⟨d3, [d1, d2], rfl, hw3⟩ hp hs
    have e2 : ([d1, d2, d3] : List Char).dropWhile (· = '#') = [d1, d2, d3] :=
      dropWhile_cons_of_neg _ _ (by simpa using hd1)
    have e1 : ('#' :: [d1, d2, d3] : List Char).dropWhile (· = '#') =
        [d1, d2, d3] := by
      rw [List.dropWhile_cons, if_pos (by decide)]
      exact e2
    constructor
    · simp only [hex_to_rgb, hs1, e1]
      simp [parseHex6, hexPair, h1, h2, h3]
    · simp only [hex_to_rgb, hs2, e2]
      simp [parseHex6, hexPair, h1, h2, h3]
  · intro s h3 h6
    simp only [hex_to_rgb]
    rw [if_neg h3]
    exact parseHex6_of_length_ne h6

/-- Witness for C10 at `" #abc"`. -/
theorem hex_to_rgb_shorthand_and_length_witness :
    ((∀ c ∈ [' '], c.isWhitespace) ∧ hexDigitVal 'a' = some 10) ∧
    hex_to_rgb ([' '] ++ ('#' :: ['a', 'b', 'c']) ++ []) =
      some ((16 * 10 + 10) * 65536 + (16 * 11 + 11) * 256 + (16 * 12 + 12)) :=
  ⟨⟨by decide, by decide⟩,
    (hex_to_rgb_shorthand_and_length.1 [' '] [] 'a' 'b' 'c' 10 11 12
      (by decide) (by decide) (by decide) (by decide) (by decide)).1⟩

/-! ## C7: totality of the color resolver -/

theorem lookup_cons_eq {β} (k n : String) (v : β) (t : List (String × β)) :
    List.lookup k ((n, v) :: t) = if k = n then some v else List.lookup k t := by
  simp [List.lookup]
  split <;> simp_all

theorem lookup_append_left {β} {k : String} {l₁ l₂ : List (String × β)} {c : β}
    (h : List.lookup k l₁ = some c) : List.lookup k (l₁ ++ l₂) = some c := by
  induction l₁ with
  | nil => simp [List.lookup] at h
  | cons a t ih =>
    rcases a with ⟨n, v⟩
    rw [List.cons_append, lookup_cons_eq]
    rw [lookup_cons_eq] at h
    by_cases hk : k = n
    · rwa [if_pos hk] at *
    · rw [if_neg hk] at h ⊢
      exact ih h

theorem lookup_append_none {β} {k : String} {l₁ l₂ : List (String × β)}
    (h : List.lookup k l₁ = none) :
    List.lookup k (l₁ ++ l₂) = List.lookup k l₂ := by
  induction l₁ with
  | nil => rfl
  | cons a t ih =>
    rcases a with ⟨n, v⟩
    rw [lookup_cons_eq] at h
    rw [List.cons_append, lookup_cons_eq]
    by_cases hk : k = n
    · rw [if_pos hk] at h; cases h
    · rw [if_neg hk] at h
      rw [if_neg hk]
      exact ih h

theorem addKeywordDefaults_some {res : List (String × ℕ)} {k : String} {c : ℕ}
    (l : List (String × ℕ)) (h : List.lookup k res = some c) :
    List.lookup k (addKeywordDefaults res l) = some c := by
  induction l generalizing res with
  | nil => exact h
  | cons a rest ih =>
    rcases a with ⟨kw, cc⟩
    unfold addKeywordDefaults
    by_cases hkw : List.lookup kw res = none
    · rw [if_pos hkw]
      exact ih (lookup_append_left h)
    · rw [if_neg hkw]
      exact ih h

theorem addKeywordDefaults_lookup {k : String} {defc : ℕ}
    (l : List (String × ℕ)) :
    ∀ res, List.lookup k l = some defc → List.lookup k res = none →
      List.lookup k (addKeywordDefaults res l) = some defc := by
  induction l with
  | nil => intro res h; simp [List.lookup] at h
  | cons a rest ih =>
    rcases a with ⟨kw, cc⟩
    intro res hl hres
    rw [lookup_cons_eq] at hl
    unfold addKeywordDefaults
    by_cases hk : k = kw
    · subst hk
      rw [if_pos hres]
      apply addKeywordDefaults_some
      rw [lookup_append_none hres, lookup_cons_eq, if_pos rfl]
      rw [if_pos rfl] at hl
      exact hl
    · rw [if_neg hk] at hl
      by_cases hkw : List.lookup kw res = none
      · rw [if_pos hkw]
        refine ih _ hl ?_
        rw [lookup_append_none hres, lookup_cons_eq, if_neg hk]
        rfl
      · rw [if_neg hkw]
        exact ih _ hl hres

theorem addKeywordDefaults_total {k : String} (l : List (String × ℕ)) :
    ∀ res, (k ∈ l.map Prod.fst ∨ (List.lookup k res).isSome) →
      (List.lookup k (addKeywordDefaults res l)).isSome := by
  induction l with
  | nil =>
    intro res h
    rcases h with h | h
    · simp at h
    · exact h
  | cons a rest ih =>
    rcases a with ⟨kw, cc⟩
    intro res h
    unfold addKeywordDefaults
    by_cases hkw : List.lookup kw res = none
    · rw [if_pos hkw]
      apply ih
      rcases h with h | h
      · rcases (by simpa using h : k = kw ∨ k ∈ rest.map Prod.fst) with rfl | h'
        · right
          rw [lookup_append_none hkw, lookup_cons_eq, if_pos rfl]
          rfl
        · left; exact h'
      · right
        rcases Option.isSome_iff_exists.mp h with ⟨c, hc⟩
        rw [lookup_append_left hc]
        rfl
    · rw [if_neg hkw]
      apply ih
      rcases h with h | h
      · rcases (by simpa using h : k = kw ∨ k ∈ rest.map Prod.fst) with rfl | h'
        · right; exact Option.isSome_iff_ne_none.mpr hkw
        · left; exact h'
      · right; exact h

theorem resolveVarsLoop_lookup_none {accent : ℕ}
    {cssVars : List (String × List Char)} {name : String}
    (h : ∀ v, (name, v) ∈ cssVars →
      v.head? = some '#' ∧ ¬ truthy (hex_to_rgb v)) :
    List.lookup name (resolveVarsLoop accent cssVars) = none := by
  induction cssVars with
  | nil => rfl
  | cons a rest ih =>
    rcases a with ⟨n, v⟩
    have hrest := ih fun v' hv' => h v' (List.mem_cons_of_mem _ hv')
    unfold resolveVarsLoop
    by_cases hn : n = name
    · subst hn
      have hv := h v (List.mem_cons_self _ _)
      rw [if_pos hv.1, if_neg hv.2]
      exact hrest
    · have hne : name ≠ n := fun he => hn he.symm
      by_cases hv : v.head? = some '#'
      · rw [if_pos hv]
        by_cases ht : truthy (hex_to_rgb v)
        · rw [if_pos ht, lookup_cons_eq, if_neg hne]
          exact hrest
        · rw [if_neg ht]
          exact hrest
      · rw [if_neg hv]
        by_cases hkw : (List.lookup n (colorKeywords accent)).isSome
        · rw [if_pos hkw, lookup_cons_eq, if_neg hne]
          exact hrest
        · rw [if_neg hkw]
          exact hrest

/-- C7: the resolved name→color table is total on the standard semantic
names; a declared variable whose `#`-value is unparsable (or black,
which `RGBColor`'s `int` truthiness also treats as falsy) falls back to
the built-in default for that name; and accent resolution returns the
hard-coded `MS_BLUE` when no usable accent variable is declared.
`hex_to_rgb` itself is total (`Option`-valued), never raising. -/
theorem color_resolution_total :
    (∀ (accent : ℕ) (cssVars : List (String × List Char)) (kw : String),
      kw ∈ (colorKeywords accent).map Prod.fst →
      (List.lookup kw (resolve_color_vars cssVars accent)).isSome) ∧
    (∀ (accent : ℕ) (cssVars : List (String × List Char))
      (name : String) (defc : ℕ),
      (∀ v, (name, v) ∈ cssVars →
        v.head? = some '#' ∧ ¬ truthy (hex_to_rgb v)) →
      List.lookup name (colorKeywords accent) = some defc →
      List.lookup name (resolve_color_vars cssVars accent) = some defc) ∧
    (∀ cssVars : List (String × List Char),
      (∀ vn, (vn = "color-accent" ∨ vn = "accent") →
        ∀ v, List.lookup vn cssVars = some v →
          ¬ (v.head? = some '#' ∧ truthy (hex_to_rgb v))) →
      resolve_accent_color cssVars = MS_BLUE) := by
  refine ⟨?_, ?_, ?_⟩
  · intro accent cssVars kw hkw
    exact addKeywordDefaults_total _ _ (Or.inl hkw)
  · intro accent cssVars name defc hun hdef
    exact addKeywordDefaults_lookup _ _ hdef (resolveVarsLoop_lookup_none hun)
  · intro cssVars h
    have key : ∀ vn, (vn = "color-accent" ∨ vn = "accent") →
        tryAccentVar cssVars vn = none := by
      intro vn hvn
      unfold tryAccentVar
      cases hlk : List.lookup vn cssVars with
      | none => simp
      | some v =>
        have hni := h vn hvn v hlk
        simp only [hlk, Option.getD_some]
        rw [if_neg hni]
    unfold resolve_accent_color
    rw [key "color-accent" (Or.inl rfl), key "accent" (Or.inr rfl)]

/-- Witness for C7: an unparsable `--success: #GGGGGG` falls back to the
built-in success green. -/
theorem color_resolution_total_witness :
    List.lookup "success" (colorKeywords MS_BLUE) = some MS_GREEN ∧
    List.lookup "success"
      (resolve_color_vars [("success", "#GGGGGG".data)] MS_BLUE) =
        some MS_GREEN :=
  ⟨by decide,
    color_resolution_total.2.1 MS_BLUE [("success", "#GGGGGG".data)]
      "success" MS_GREEN
      (fun v hv => by
        have h := List.mem_singleton.mp hv
        simp only [Prod.mk.injEq] at h
        obtain ⟨-, rfl⟩ := h
        exact ⟨by decide, by decide⟩)
      (by decide)⟩

/-! ## C8: check/cross coloring of bullet lines -/

/-- C8: `_split_bullet_lines` colors every line starting with `✓` with
the success green and every line starting with `✗` with the danger red;
and the three-item `✓ ✓ ✗` feature list renders exactly three
paragraphs colored success, success, danger. -/
theorem bullet_line_colors :
    (∀ (text l : List Char) (c : Option ℕ),
      (l, c) ∈ split_bullet_lines text →
      (l.head? = some '✓' → c = some MS_GREEN) ∧
      (l.head? = some '✗' → c = some MS_RED)) ∧
    ((handle_feature_list ["✓ Fast".data, "✓ Safe".data, "✗ Slow".data]
        [] 1).1 =
      [⟨"✓ Fast".data, MS_GREEN⟩, ⟨"✓ Safe".data, MS_GREEN⟩,
        ⟨"✗ Slow".data, MS_RED⟩] ∧
      (handle_feature_list ["✓ Fast".data, "✓ Safe".data, "✗ Slow".data]
        [] 1).1.length = 3) := by
  constructor
  · intro text l c hm
    unfold split_bullet_lines at hm
    rw [List.mem_filterMap] at hm
    obtain ⟨line, -, heq⟩ := hm
    by_cases hl : pyStrip line = []
    · rw [if_pos hl] at heq; cases heq
    · rw [if_neg hl] at heq
      injection heq with heq
      rw [Prod.mk.injEq] at heq
      obtain ⟨h1, h2⟩ := heq
      subst h1
      subst h2
      constructor
      · intro hh
        rw [if_pos hh]
      · intro hh
        have hnot : ¬ ((pyStrip line).head? = some '✓') := by
          rw [hh]; decide
        rw [if_neg hnot, if_pos hh]
  · constructor <;> decide

/-- Witness for C8 at the line `"✓ ok"`. -/
theorem bullet_line_colors_witness :
    (("✓ ok".data, (some MS_GREEN : Option ℕ)) ∈
        split_bullet_lines "✓ ok".data) ∧
    ((some MS_GREEN : Option ℕ) = some MS_GREEN) :=
  ⟨by decide,
    (bullet_line_colors.1 "✓ ok".data "✓ ok".data (some MS_GREEN)
      (by decide)).1 (by decide)⟩

/-! ## C2: cursor monotonicity of single-column handlers -/

/-- C2 counterexample: `_handle_highlight_box` clamps its box top to
`min(current_top, SLIDE_HEIGHT - 0.85)` and returns `top + 0.8 +
GAP_NORMAL`, so from cursor 6 it returns 5.695 < 6 — the cursor
decreases. -/
theorem highlight_box_cursor_decreases : (handle_highlight_box 6).2 < 6 := by
  norm_num [handle_highlight_box, SLIDE_HEIGHT, GAP_NORMAL, min_def]

/-- C2 amended: the title-meta handler is cursor-monotone for every
input and cursor; the highlight-box handler is cursor-monotone exactly
on cursors at most `SLIDE_HEIGHT - 0.85 + 0.8 + GAP_NORMAL` (= 5.695),
beyond which its bottom-clamping returns a smaller cursor. -/
theorem single_column_cursor_monotone :
    (∀ (text : List Char) (t : ℚ), t ≤ (handle_title_meta text t).2) ∧
    (∀ t : ℚ, t ≤ SLIDE_HEIGHT - 0.85 + 0.8 + GAP_NORMAL →
      t ≤ (handle_highlight_box t).2) := by
  constructor
  · intro text t
    unfold handle_title_meta
    by_cases h : text = []
    · rw [if_pos h]
    · rw [if_neg h]
      simp only
      have h45 : t ≤ max t 4.5 := le_max_left _ _
      linarith
  · intro t ht
    unfold handle_highlight_box
    simp only
    rcases le_or_lt t (SLIDE_HEIGHT - 0.85) with h | h
    · rw [min_eq_left h]
      have hG : GAP_NORMAL = 0.12 := rfl
      rw [hG]
      linarith
    · rw [min_eq_right h.le]
      linarith

/-- Witness for C2 (amended) at cursor 1. -/
theorem single_column_cursor_monotone_witness :
    ((1 : ℚ) ≤ SLIDE_HEIGHT - 0.85 + 0.8 + GAP_NORMAL) ∧
    ((1 : ℚ) ≤ (handle_title_meta "x".data 1).2 ∧
      (1 : ℚ) ≤ (handle_highlight_box 1).2) :=
  ⟨by norm_num [SLIDE_HEIGHT, GAP_NORMAL],
    single_column_cursor_monotone.1 "x".data 1,
    single_column_cursor_monotone.2 1
      (by norm_num [SLIDE_HEIGHT, GAP_NORMAL])⟩

/-! ## C5: code-block height clamp and font tiers -/

/-- C5 counterexample: from cursor 5.0 the remaining space (0.475) is
below the 0.8 floor, so the background shape gets height 0.8 and its
bottom edge 5.8 extends 0.175 in past the 5.625 canvas bottom. -/
theorem code_block_bottom_overflow :
    (handle_code_block [⟨thirtyLines, CODE_DEFAULT, false⟩] [] 5).shapes =
      [⟨CONTENT_LEFT, 5, CONTENT_WIDTH, 0.8⟩,
        ⟨CONTENT_LEFT + 0.05, 5 + 0.05, CONTENT_WIDTH - 0.1, 0.8 - 0.1⟩] ∧
    SLIDE_HEIGHT < 5 + 0.8 := by
  have hlen : codeNumLines (codeRunsOf [⟨thirtyLines, CODE_DEFAULT, false⟩] []) =
      30 := by decide
  have hh : codeHeight 30 5 = 0.8 := by
    unfold codeHeight codeAvailable codeEstHeight SLIDE_HEIGHT
    norm_num [min_def, max_def]
  constructor
  · unfold handle_code_block
    rw [if_neg (by simp)]
    simp only [hlen, hh]
  · unfold SLIDE_HEIGHT
    norm_num

/-- C5 amended: whenever at least `0.8 + 0.15` inches remain below the
cursor, every shape the code-block handler emits ends at or above
`SLIDE_HEIGHT - 0.15`, hence inside the canvas (with less remaining
space the 0.8-inch minimum box may extend past the bottom); and a
30-line code block gets the smallest font tier, 9 pt. -/
theorem code_block_clamped :
    (∀ (runs : List CodeRun) (elText : List Char) (t : ℚ),
      t ≤ SLIDE_HEIGHT - 0.95 →
      ∀ s ∈ (handle_code_block runs elText t).shapes,
        s.top + s.height ≤ SLIDE_HEIGHT - 0.15) ∧
    (∀ (runs : List CodeRun) (elText : List Char) (t : ℚ),
      runs ≠ [] → codeNumLines runs = 30 →
      (handle_code_block runs elText t).fontSize = some 9) := by
  constructor
  · intro runs elText t ht s hs
    have hSH : SLIDE_HEIGHT = 5.625 := rfl
    rw [hSH] at ht
    by_cases h1 : runs = [] ∧ elText = []
    · unfold handle_code_block at hs
      rw [if_pos h1] at hs
      simp at hs
    · unfold handle_code_block at hs
      rw [if_neg h1] at hs
      simp only [List.mem_cons, List.not_mem_nil, or_false] at hs
      have hav : codeAvailable t = SLIDE_HEIGHT - t - 0.15 := by
        unfold codeAvailable
        rw [if_neg]
        rw [hSH]
        intro hlt
        linarith
      have hch : codeHeight (codeNumLines (codeRunsOf runs elText)) t ≤
          codeAvailable t := by
        unfold codeHeight
        split_ifs with h
        · exact le_rfl
        · exact not_lt.mp h
      rw [hav, hSH] at hch
      rw [hSH]
      rcases hs with rfl | rfl <;> simp only <;> linarith
  · intro runs elText t hne hlen
    have hcr : codeRunsOf runs elText = runs := if_neg hne
    unfold handle_code_block
    rw [if_neg (by simp [hne])]
    simp only [hcr, hlen]
    rfl

/-- Witness for C5 (amended) at cursor 1 with a 30-line block. -/
theorem code_block_clamped_witness :
    ((1 : ℚ) ≤ SLIDE_HEIGHT - 0.95 ∧
      codeNumLines [⟨thirtyLines, CODE_DEFAULT, false⟩] = 30) ∧
    ((handle_code_block [⟨thirtyLines, CODE_DEFAULT, false⟩] [] 1).fontSize =
        some 9 ∧
      ∀ s ∈ (handle_code_block [⟨thirtyLines, CODE_DEFAULT, false⟩] [] 1).shapes,
        s.top + s.height ≤ SLIDE_HEIGHT - 0.15) :=
  ⟨⟨by rw [show SLIDE_HEIGHT = 5.625 from rfl]; norm_num, by decide⟩,
    code_block_clamped.2 _ [] 1 (by decide) (by decide),
    code_block_clamped.1 _ [] 1
      (by rw [show SLIDE_HEIGHT = 5.625 from rfl]; norm_num)⟩

/-! ## C6: empty-content renderers -/

/-- C6 counterexample: the standalone-card renderer, fed a card bundle
with no title, no body and no runs (as `_extract_card_content` produces
for an empty `<div class="card">`), still emits the filled card frame
(with zero paragraphs) and advances the cursor from 1 to 2.62. -/
theorem standalone_card_empty_not_noop :
    (handle_standalone_card MS_BLUE ⟨[], [], none⟩ 1).1.1 =
      ⟨CONTENT_LEFT, 1, CONTENT_WIDTH, 1.2⟩ ∧
    (handle_standalone_card MS_BLUE ⟨[], [], none⟩ 1).1.2 = [] ∧
    (handle_standalone_card MS_BLUE ⟨[], [], none⟩ 1).2 ≠ 1 := by
  refine ⟨rfl, rfl, ?_⟩
  unfold handle_standalone_card
  simp only
  have hG : GAP_NORMAL = 0.12 := rfl
  rw [hG]
  norm_num

/-- C6 amended: handlers that guard on empty extracted content are
no-ops that return the cursor unchanged and emit nothing — shown for
the title-meta and code-block handlers; the standalone-card (and
before/after) handlers are exceptions, emitting a card frame and
advancing the cursor even for empty content. -/
theorem empty_content_guarded_noop :
    (∀ t : ℚ, handle_title_meta [] t = ([], t)) ∧
    (∀ t : ℚ, handle_code_block [] [] t = ⟨[], none, t⟩) := by
  exact ⟨fun t => rfl, fun t => rfl⟩

/-! ## C1 and C9: the overflow compressor -/

theorem init_le_foldl_max (b : ℤ) (l : List ℤ) : b ≤ l.foldl max b := by
  induction l generalizing b with
  | nil => exact le_refl b
  | cons z zs ih => exact le_trans (le_max_left b z) (ih (max b z))

theorem mem_le_foldl_max {x : ℤ} (l : List ℤ) (b : ℤ) (h : x = b ∨ x ∈ l) :
    x ≤ l.foldl max b := by
  induction l generalizing b with
  | nil =>
    rcases h with rfl | h
    · exact le_refl x
    · exact absurd h (List.not_mem_nil x)
  | cons z zs ih =>
    simp only [List.foldl_cons]
    rcases h with rfl | h
    · exact le_trans (le_max_left x z) (init_le_foldl_max _ _)
    · rcases List.mem_cons.mp h with rfl | h'
      · exact le_trans (le_max_right b x) (init_le_foldl_max _ _)
      · exact ih _ (Or.inr h')

theorem le_actualBottom {shapes : List CShape} {sh : CShape} (h : sh ∈ shapes) :
    sh.top + sh.height ≤ actualBottom shapes := by
  unfold actualBottom
  cases shapes with
  | nil => cases h
  | cons a rest =>
    simp only [List.map_cons]
    show sh.top + sh.height ≤ (rest.map fun s => s.top + s.height).foldl max
      (a.top + a.height)
    rcases List.mem_cons.mp h with rfl | h'
    · exact mem_le_foldl_max _ _ (Or.inl rfl)
    · exact mem_le_foldl_max _ _
        (Or.inr (List.mem_map_of_mem (fun s => s.top + s.height) h'))

theorem rawScale_lt_one {shapes : List CShape}
    (h2 : SLIDE_BOTTOM_EMU < actualBottom shapes)
    (h3 : 0 < actualBottom shapes - contentStartOf shapes) :
    rawScale shapes < 1 := by
  have hnum : SLIDE_BOTTOM_EMU - MARGIN_EMU - contentStartOf shapes <
      actualBottom shapes - contentStartOf shapes := by
    have hSB : SLIDE_BOTTOM_EMU = 5143500 := rfl
    have hM : MARGIN_EMU = 91440 := rfl
    rw [hSB] at h2
    rw [hSB, hM]
    omega
  unfold rawScale
  rw [div_lt_one (by exact_mod_cast h3)]
  exact_mod_cast hnum

/-- Characterisation of `_compress_if_needed` on an overflowing slide:
the output is the per-shape transform at `appliedScale`, the warning is
appended exactly when the raw scale fell below the floor, and the
applied scale lies in `[0.40, 1)`. -/
theorem compress_spec (shapes : List CShape) (h1 : shapes ≠ [])
    (h2 : SLIDE_BOTTOM_EMU < actualBottom shapes)
    (h3 : 0 < actualBottom shapes - contentStartOf shapes) :
    (compress_if_needed shapes).1 =
      shapes.map (compressShape (contentStartOf shapes) (appliedScale shapes)) ∧
    ((compress_if_needed shapes).2 = true ↔ rawScale shapes < 0.40) ∧
    0.40 ≤ appliedScale shapes ∧ appliedScale shapes < 1 := by
  have hlt1 : rawScale shapes < 1 := rawScale_lt_one h2 h3
  unfold compress_if_needed
  rw [if_neg h1, if_neg (not_le.mpr h2), if_neg (not_le.mpr h3),
    if_neg (not_le.mpr hlt1)]
  by_cases hf : rawScale shapes < 0.40
  · rw [if_pos hf]
    have hap : appliedScale shapes = 0.40 := max_eq_left hf.le
    exact ⟨by rw [hap], by simp [hf], le_max_left _ _, by rw [hap]; norm_num⟩
  · rw [if_neg hf]
    have hap : appliedScale shapes = rawScale shapes :=
      max_eq_right (not_lt.mp hf)
    exact ⟨by rw [hap], by simp [hf], le_max_left _ _, by rw [hap]; exact hlt1⟩

/-- C9: compression preserves vertical structure.  On an overflowing
slide the applied scale `s` satisfies `0.40 ≤ s < 1`; every shape with
top at or below the content start moves to exactly
`content_start + ⌊offset * s⌋`, staying between the content start and
its old position, with relative top order preserved; shapes above the
content start are untouched. -/
theorem compress_preserves_structure :
    ∀ shapes : List CShape, shapes ≠ [] →
      SLIDE_BOTTOM_EMU < actualBottom shapes →
      0 < actualBottom shapes - contentStartOf shapes →
      (0.40 ≤ appliedScale shapes ∧ appliedScale shapes < 1) ∧
      (compress_if_needed shapes).1 =
        shapes.map (compressShape (contentStartOf shapes) (appliedScale shapes)) ∧
      (∀ sh ∈ shapes,
        (contentStartOf shapes ≤ sh.top →
          (compressShape (contentStartOf shapes) (appliedScale shapes) sh).top =
            contentStartOf shapes +
              ⌊((sh.top - contentStartOf shapes : ℤ) : ℚ) * appliedScale shapes⌋ ∧
          contentStartOf shapes ≤
            (compressShape (contentStartOf shapes) (appliedScale shapes) sh).top ∧
          (compressShape (contentStartOf shapes) (appliedScale shapes) sh).top ≤
            sh.top) ∧
        (sh.top < contentStartOf shapes →
          compressShape (contentStartOf shapes) (appliedScale shapes) sh = sh)) ∧
      (∀ sh ∈ shapes, ∀ sh' ∈ shapes,
        contentStartOf shapes ≤ sh.top → contentStartOf shapes ≤ sh'.top →
        sh.top ≤ sh'.top →
        (compressShape (contentStartOf shapes) (appliedScale shapes) sh).top ≤
          (compressShape (contentStartOf shapes) (appliedScale shapes) sh').top) := by
  intro shapes h1 h2 h3
  obtain ⟨hmap, hwarn, hs04, hs1⟩ := compress_spec shapes h1 h2 h3
  set cs := contentStartOf shapes with hcs
  set s := appliedScale shapes with hsc
  have hspos : (0 : ℚ) < s := lt_of_lt_of_le (by norm_num) hs04
  have key : ∀ sh : CShape, cs ≤ sh.top →
      (compressShape cs s sh).top = cs + ⌊((sh.top - cs : ℤ) : ℚ) * s⌋ := by
    intro sh hle
    unfold compressShape
    rw [if_pos hle]
    simp only
    congr 1
    unfold pyInt
    rw [if_neg (not_lt.mpr (mul_nonneg
      (by exact_mod_cast Int.sub_nonneg.mpr hle) hspos.le))]
  refine ⟨⟨hs04, hs1⟩, hmap, ?_, ?_⟩
  · intro sh _
    constructor
    · intro hle
      refine ⟨key sh hle, ?_, ?_⟩
      · rw [key sh hle]
        have : (0 : ℤ) ≤ ⌊((sh.top - cs : ℤ) : ℚ) * s⌋ :=
          Int.floor_nonneg.mpr (mul_nonneg
            (by exact_mod_cast Int.sub_nonneg.mpr hle) hspos.le)
        omega
      · rw [key sh hle]
        have hb : ((sh.top - cs : ℤ) : ℚ) * s ≤ ((sh.top - cs : ℤ) : ℚ) :=
          mul_le_of_le_one_right
            (by exact_mod_cast Int.sub_nonneg.mpr hle) hs1.le
        have := le_trans (Int.floor_mono hb) (le_of_eq (Int.floor_intCast _))
        omega
    · intro hlt
      unfold compressShape
      rw [if_neg (not_le.mpr hlt)]
  · intro sh _ sh' _ hle hle' hord
    rw [key sh hle, key sh' hle']
    have : ((sh.top - cs : ℤ) : ℚ) * s ≤ ((sh'.top - cs : ℤ) : ℚ) * s :=
      mul_le_mul_of_nonneg_right (by exact_mod_cast sub_le_sub_right hord cs)
        hspos.le
    have := Int.floor_mono this
    omega

/-- Witness for C9 on a single overflowing shape. -/
theorem compress_preserves_structure_witness :
    (([⟨274320, 6000000, false⟩] : List CShape) ≠ [] ∧
      SLIDE_BOTTOM_EMU < actualBottom [⟨274320, 6000000, false⟩] ∧
      0 < actualBottom [⟨274320, 6000000, false⟩] -
        contentStartOf [⟨274320, 6000000, false⟩]) ∧
    (compress_if_needed [⟨274320, 6000000, false⟩]).1 =
      [⟨274320, 6000000, false⟩].map
        (compressShape (contentStartOf [⟨274320, 6000000, false⟩])
          (appliedScale [⟨274320, 6000000, false⟩])) :=
  ⟨⟨by decide, by decide, by decide⟩,
    (compress_preserves_structure [⟨274320, 6000000, false⟩]
      (by decide) (by decide) (by decide)).2.1⟩

/-- C1 counterexample: an overflowing slide with a shape above the
content start (top `0 < Inches(0.3)`, untouched by the pass) and a
table at the content start (whose height is never rescaled).  The pass
compresses without hitting the floor — no warning — yet both shapes'
bottom edges still exceed the canvas height by more than 0.1 in. -/
theorem compress_overflow_bound_cex :
    compress_if_needed [⟨0, 5300000, false⟩, ⟨274320, 5500000, true⟩] =
      ([⟨0, 5300000, false⟩, ⟨274320, 5500000, true⟩], false) ∧
    SLIDE_BOTTOM_EMU <
      actualBottom [⟨0, 5300000, false⟩, ⟨274320, 5500000, true⟩] ∧
    SLIDE_BOTTOM_EMU + MARGIN_EMU < (0 : ℤ) + 5300000 ∧
    SLIDE_BOTTOM_EMU + MARGIN_EMU < (274320 : ℤ) + 5500000 := by
  have hab : actualBottom [⟨0, 5300000, false⟩, ⟨274320, 5500000, true⟩] =
      5774320 := by decide
  have hcs : contentStartOf [⟨0, 5300000, false⟩, ⟨274320, 5500000, true⟩] =
      274320 := by decide
  have hraw : rawScale [⟨0, 5300000, false⟩, ⟨274320, 5500000, true⟩] =
      (4777740 : ℚ) / 5500000 := by
    unfold rawScale
    rw [hab, hcs, show SLIDE_BOTTOM_EMU = 5143500 from rfl,
      show MARGIN_EMU = 91440 from rfl]
    norm_num
  have e1 : compressShape 274320
      (rawScale [⟨0, 5300000, false⟩, ⟨274320, 5500000, true⟩])
      ⟨0, 5300000, false⟩ = ⟨0, 5300000, false⟩ := by
    unfold compressShape
    rw [if_neg (by decide)]
  have e2 : compressShape 274320
      (rawScale [⟨0, 5300000, false⟩, ⟨274320, 5500000, true⟩])
      ⟨274320, 5500000, true⟩ = ⟨274320, 5500000, true⟩ := by
    unfold compressShape
    rw [if_pos (by decide)]
    have hz : (((274320 : ℤ) - 274320 : ℤ) : ℚ) *
        rawScale [⟨0, 5300000, false⟩, ⟨274320, 5500000, true⟩] = 0 := by
      norm_num
    simp only [CShape.mk.injEq]
    refine ⟨?_, by simp, by simp⟩
    rw [hz]
    unfold pyInt
    rw [if_neg (by norm_num)]
    simp
  refine ⟨?_, by decide, by decide, by decide⟩
  unfold compress_if_needed
  rw [if_neg (by decide), if_neg (by decide), if_neg (by decide),
    if_neg (by rw [hraw]; norm_num), if_neg (by rw [hraw]; norm_num), hcs]
  rw [List.map_cons, List.map_cons, List.map_nil, e1, e2]

/-- C1 amended: on an overflowing slide, after compression every
**non-table** shape whose top lies at or below the content start ends
at or above the canvas bottom, OR the 0.40 floor was applied and the
severe-overflow warning was flagged.  (Tables keep their height and
shapes above the content start are untouched, so those can still
protrude — see the counterexample.) -/
theorem compress_overflow_bound :
    ∀ shapes : List CShape, shapes ≠ [] →
      SLIDE_BOTTOM_EMU < actualBottom shapes →
      0 < actualBottom shapes - contentStartOf shapes →
      (∀ sh ∈ shapes, 0 ≤ sh.height) →
      (compress_if_needed shapes).1 =
        shapes.map (compressShape (contentStartOf shapes) (appliedScale shapes)) ∧
      ∀ sh ∈ shapes, contentStartOf shapes ≤ sh.top → sh.hasTable = false →
        ((compressShape (contentStartOf shapes) (appliedScale shapes) sh).top +
          (compressShape (contentStartOf shapes) (appliedScale shapes) sh).height ≤
            SLIDE_BOTTOM_EMU) ∨
        (compress_if_needed shapes).2 = true := by
  intro shapes h1 h2 h3 hht
  obtain ⟨hmap, hwarn, hs04, hs1⟩ := compress_spec shapes h1 h2 h3
  refine ⟨hmap, ?_⟩
  intro sh hmem hcs htab
  by_cases hf : rawScale shapes < 0.40
  · exact Or.inr (hwarn.mpr hf)
  · left
    have hap : appliedScale shapes = rawScale shapes :=
      max_eq_right (not_lt.mp hf)
    rw [hap] at hs04 hs1 ⊢
    have hspos : (0 : ℚ) < rawScale shapes := lt_of_lt_of_le (by norm_num) hs04
    have hoff : (0 : ℤ) ≤ sh.top - contentStartOf shapes :=
      Int.sub_nonneg.mpr hcs
    have hout : compressShape (contentStartOf shapes) (rawScale shapes) sh =
        ⟨contentStartOf shapes +
            pyInt (((sh.top - contentStartOf shapes : ℤ) : ℚ) * rawScale shapes),
          pyInt (((sh.height : ℤ) : ℚ) * rawScale shapes), sh.hasTable⟩ := by
      unfold compressShape
      rw [if_pos hcs, htab]
      simp
    have hfl1 : pyInt (((sh.top - contentStartOf shapes : ℤ) : ℚ) *
        rawScale shapes) =
        ⌊((sh.top - contentStartOf shapes : ℤ) : ℚ) * rawScale shapes⌋ := by
      unfold pyInt
      rw [if_neg (not_lt.mpr (mul_nonneg (by exact_mod_cast hoff) hspos.le))]
    have hfl2 : pyInt (((sh.height : ℤ) : ℚ) * rawScale shapes) =
        ⌊((sh.height : ℤ) : ℚ) * rawScale shapes⌋ := by
      unfold pyInt
      rw [if_neg (not_lt.mpr (mul_nonneg
        (by exact_mod_cast hht sh hmem) hspos.le))]
    rw [hout]
    simp only [hfl1, hfl2]
    have hch : (0 : ℚ) <
        ((actualBottom shapes - contentStartOf shapes : ℤ) : ℚ) := by
      exact_mod_cast h3
    have hsum : ((sh.top - contentStartOf shapes + sh.height : ℤ) : ℚ) ≤
        ((actualBottom shapes - contentStartOf shapes : ℤ) : ℚ) := by
      have := le_actualBottom hmem
      exact_mod_cast (by omega : sh.top - contentStartOf shapes + sh.height ≤
        actualBottom shapes - contentStartOf shapes)
    have e2 : ((actualBottom shapes - contentStartOf shapes : ℤ) : ℚ) *
        rawScale shapes =
        ((SLIDE_BOTTOM_EMU - MARGIN_EMU - contentStartOf shapes : ℤ) : ℚ) := by
      unfold rawScale
      rw [mul_comm, div_mul_cancel₀ _ (ne_of_gt hch)]
    have hint : ⌊((sh.top - contentStartOf shapes : ℤ) : ℚ) *
          rawScale shapes⌋ +
        ⌊((sh.height : ℤ) : ℚ) * rawScale shapes⌋ ≤
        SLIDE_BOTTOM_EMU - MARGIN_EMU - contentStartOf shapes := by
      have hq : ((⌊((sh.top - contentStartOf shapes : ℤ) : ℚ) *
            rawScale shapes⌋ +
          ⌊((sh.height : ℤ) : ℚ) * rawScale shapes⌋ : ℤ) : ℚ) ≤
          ((SLIDE_BOTTOM_EMU - MARGIN_EMU - contentStartOf shapes : ℤ) : ℚ) := by
        calc ((⌊((sh.top - contentStartOf shapes : ℤ) : ℚ) *
              rawScale shapes⌋ +
            ⌊((sh.height : ℤ) : ℚ) * rawScale shapes⌋ : ℤ) : ℚ) =
            (⌊((sh.top - contentStartOf shapes : ℤ) : ℚ) *
                rawScale shapes⌋ : ℚ) +
              (⌊((sh.height : ℤ) : ℚ) * rawScale shapes⌋ : ℚ) := by
              push_cast
              ring
          _ ≤ ((sh.top - contentStartOf shapes : ℤ) : ℚ) * rawScale shapes +
              ((sh.height : ℤ) : ℚ) * rawScale shapes :=
              add_le_add (Int.floor_le _) (Int.floor_le _)
          _ = ((sh.top - contentStartOf shapes + sh.height : ℤ) : ℚ) *
              rawScale shapes := by
              push_cast
              ring
          _ ≤ ((actualBottom shapes - contentStartOf shapes : ℤ) : ℚ) *
              rawScale shapes := mul_le_mul_of_nonneg_right hsum hspos.le
          _ = _ := e2
      exact_mod_cast hq
    have hM : (0 : ℤ) ≤ MARGIN_EMU := by decide
    omega

theorem compress_overflow_bound_witness :
    (([⟨274320, 5000000, false⟩] : List CShape) ≠ [] ∧
      SLIDE_BOTTOM_EMU < actualBottom [⟨274320, 5000000, false⟩] ∧
      contentStartOf [⟨274320, 5000000, false⟩] ≤ (274320 : ℤ)) ∧
    (((compressShape (contentStartOf [⟨274320, 5000000, false⟩])
        (appliedScale [⟨274320, 5000000, false⟩])
        ⟨274320, 5000000, false⟩).top +
      (compressShape (contentStartOf [⟨274320, 5000000, false⟩])
        (appliedScale [⟨274320, 5000000, false⟩])
        ⟨274320, 5000000, false⟩).height ≤ SLIDE_BOTTOM_EMU) ∨
      (compress_if_needed [⟨274320, 5000000, false⟩]).2 = true) :=
  ⟨⟨by decide, by decide, by decide⟩,
    (compress_overflow_bound [⟨274320, 5000000, false⟩] (by decide) (by decide)
      (by decide) (by decide)).2 ⟨274320, 5000000, false⟩ (by decide)
      (by decide) rfl⟩

/-! ## C3: no double rendering of cards inside classified grids -/

theorem mark_acc_mem (l : List Elem) (handled : List ℕ) {x : ℕ}
    (hx : x ∈ handled) :
    x ∈ l.foldl (fun h ch => h ++ ch.eid :: ch.descendants.map Elem.eid)
      handled := by
  induction l generalizing handled with
  | nil => exact hx
  | cons a l ih =>
    simp only [List.foldl_cons]
    exact ih _ (by simp [hx])

theorem mark_mem (l : List Elem) {ch : Elem} (hch : ch ∈ l) {x : ℕ}
    (hx : x = ch.eid ∨ x ∈ ch.descendants.map Elem.eid) :
    ∀ handled,
      x ∈ l.foldl (fun h ch => h ++ ch.eid :: ch.descendants.map Elem.eid)
        handled := by
  induction l with
  | nil => cases hch
  | cons a l ih =>
    intro handled
    simp only [List.foldl_cons]
    rcases List.mem_cons.mp hch with rfl | h'
    · apply mark_acc_mem
      rcases hx with rfl | hx2
      · simp
      · simp [hx2]
    · exact ih h' _

theorem descendants_mem {g c : Elem} (h : c ∈ g.descendants) :
    ∃ ch ∈ g.children, c = ch ∨ c ∈ ch.descendants := by
  rcases g with ⟨i, n, cls, cs⟩
  unfold Elem.descendants at h
  rw [List.mem_flatMap] at h
  obtain ⟨⟨ch, hch⟩, -, hmem⟩ := h
  exact ⟨ch, hch, by simpa using List.mem_cons.mp hmem⟩

theorem children_ne_nil_of_mem_descendants {e c : Elem}
    (h : c ∈ e.descendants) : e.children ≠ [] := by
  rcases e with ⟨i, n, cls, cs⟩
  intro hnil
  simp only [Elem.children] at hnil
  subst hnil
  unfold Elem.descendants at h
  simp at h

/-- C3: a card inside a grid container that the card-grid pass
processed is marked handled (together with every descendant of the
grid's children), so the standalone-card pass and the final fallback
both skip it; and the standalone pass also skips any card whose
immediate parent carries a recognised grid class, handled or not. -/
theorem card_in_grid_rendered_once :
    ∀ (g c : Elem) (handled : List ℕ),
      (∀ ch ∈ g.children, (ch.tag = "style" ∨ ch.tag = "script") →
        ch.children = []) →
      c.tag ≠ "style" → c.tag ≠ "script" →
      (∃ cl ∈ c.classes, cl ∈ cardClasses) →
      c ∈ g.descendants →
      c.eid ∈ markCardGrid g handled ∧
      (∀ parentClasses, ¬ standaloneRenders c parentClasses
        (markCardGrid g handled)) ∧
      (∀ el : Elem, (el = c ∨ c ∈ el.descendants) →
        ¬ fallbackRenders el (markCardGrid g handled)) ∧
      (∀ (c' : Elem) (h' : List ℕ) (parentClasses : List String),
        (∃ cl ∈ parentClasses, cl ∈ gridClasses) →
        ¬ standaloneRenders c' parentClasses h') := by
  intro g c handled hwf hcs1 hcs2 hcard hdesc
  have hmark : c.eid ∈ markCardGrid g handled := by
    obtain ⟨ch, hch, hcase⟩ := descendants_mem hdesc
    unfold markCardGrid
    rcases hcase with rfl | hdc
    · have hfil : c ∈ g.children.filter
          (fun ch => ch.tag ≠ "style" && ch.tag ≠ "script") := by
        rw [List.mem_filter]
        exact ⟨hch, by simp [hcs1, hcs2]⟩
      exact mark_mem _ hfil (Or.inl rfl) handled
    · have hfil : ch ∈ g.children.filter
          (fun ch => ch.tag ≠ "style" && ch.tag ≠ "script") := by
        rw [List.mem_filter]
        refine ⟨hch, ?_⟩
        by_cases hss : ch.tag = "style" ∨ ch.tag = "script"
        · exact absurd (hwf ch hch hss)
            (children_ne_nil_of_mem_descendants hdc)
        · push_neg at hss
          simp [hss.1, hss.2]
      exact mark_mem _ hfil (Or.inr (List.mem_map_of_mem _ hdc)) handled
  refine ⟨hmark, ?_, ?_, ?_⟩
  · intro pcs hr
    exact hr.1 hmark
  · intro el hel hr
    rcases hel with rfl | hdc
    · exact hr.1 hmark
    · exact hr.2 c hdc hmark
  · intro c' h' pcs hgrid hr
    exact hr.2 hgrid

/-- Witness for C3: a card nested in a `grid-3` container. -/
theorem card_in_grid_rendered_once_witness :
    ((Elem.mk 1 "div" ["card"] []) ∈
        (Elem.mk 0 "div" ["grid-3"] [Elem.mk 1 "div" ["card"] []]).descendants ∧
      "card" ∈ cardClasses) ∧
    (Elem.mk 1 "div" ["card"] []).eid ∈
      markCardGrid (Elem.mk 0 "div" ["grid-3"] [Elem.mk 1 "div" ["card"] []])
        [] :=
  have hmem : (Elem.mk 1 "div" ["card"] []) ∈
      (Elem.mk 0 "div" ["grid-3"] [Elem.mk 1 "div" ["card"] []]).descendants := by
    unfold Elem.descendants
    rw [List.mem_flatMap]
    exact ⟨⟨Elem.mk 1 "div" ["card"] [], List.mem_singleton_self _⟩,
      List.mem_attach _ _, List.mem_cons_self _ _⟩
  ⟨⟨hmem, by decide⟩,
    (card_in_grid_rendered_once
      (Elem.mk 0 "div" ["grid-3"] [Elem.mk 1 "div" ["card"] []])
      (Elem.mk 1 "div" ["card"] []) []
      (by
        intro ch hch hss
        simp only [Elem.children] at hch
        rw [List.mem_singleton] at hch
        subst hch
        rcases hss with h | h <;> exact absurd h (by decide))
      (by decide) (by decide)
      ⟨"card", by decide, by decide⟩ hmem).1⟩

/-! ## C4: rich-run merge idempotence -/

theorem mergeLoop_cons_eq (rs : List RichRun) :
    ∀ (a : RichRun) (acc : List RichRun),
      mergeLoop (a :: acc) rs = acc.reverse ++ mergeAdj (a :: rs) := by
  induction rs with
  | nil =>
    intro a acc
    show (a :: acc).reverse = acc.reverse ++ mergeAdj [a]
    rw [show mergeAdj [a] = [a] from by simp [mergeAdj]]
    simp
  | cons r rs ih =>
    intro a acc
    show (if a.fmt = r.fmt then
        mergeLoop ({ a with text := a.text ++ r.text } :: acc) rs
      else mergeLoop (r :: a :: acc) rs) =
      acc.reverse ++ mergeAdj (a :: r :: rs)
    by_cases h : a.fmt = r.fmt
    · rw [if_pos h, ih _ acc,
        show mergeAdj (a :: r :: rs) =
            mergeAdj ({ a with text := a.text ++ r.text } :: rs) from by
          simp only [mergeAdj]
          rw [if_pos h]]
    · rw [if_neg h, ih r (a :: acc),
        show mergeAdj (a :: r :: rs) = a :: mergeAdj (r :: rs) from by
          simp only [mergeAdj]
          rw [if_neg h]]
      simp

theorem mergeLoop_nil_eq (rs : List RichRun) : mergeLoop [] rs = mergeAdj rs := by
  cases rs with
  | nil => simp [mergeLoop, mergeAdj]
  | cons r rs =>
    show mergeLoop [r] rs = mergeAdj (r :: rs)
    rw [mergeLoop_cons_eq rs r []]
    simp

theorem mergeAdj_cons_fmt :
    ∀ (n : ℕ) (r : RichRun) (rs : List RichRun), rs.length = n →
      ∃ t tl, mergeAdj (r :: rs) = t :: tl ∧ t.fmt = r.fmt := by
  intro n
  induction n using Nat.strong_induction_on with
  | _ n ih =>
    intro r rs hlen
    cases rs with
    | nil => exact ⟨r, [], by simp [mergeAdj], rfl⟩
    | cons s rs' =>
      by_cases h : r.fmt = s.fmt
      · have e : mergeAdj (r :: s :: rs') =
            mergeAdj ({ r with text := r.text ++ s.text } :: rs') := by
          simp only [mergeAdj]
          rw [if_pos h]
        obtain ⟨t, tl, he, hf⟩ := ih rs'.length
          (by simp at hlen; omega) _ rs' rfl
        exact ⟨t, tl, by rw [e, he], by rw [hf]; rfl⟩
      · exact ⟨r, mergeAdj (s :: rs'), by
          simp only [mergeAdj]
          rw [if_neg h], rfl⟩

theorem mergeAdj_chain :
    ∀ (n : ℕ) (l : List RichRun), l.length = n →
      List.Chain' (fun a b => a.fmt ≠ b.fmt) (mergeAdj l) := by
  intro n
  induction n using Nat.strong_induction_on with
  | _ n ih =>
    intro l hlen
    cases l with
    | nil => simp [mergeAdj]
    | cons r rs =>
      cases rs with
      | nil => simp [mergeAdj]
      | cons s rs' =>
        by_cases h : r.fmt = s.fmt
        · rw [show mergeAdj (r :: s :: rs') =
              mergeAdj ({ r with text := r.text ++ s.text } :: rs') from by
            simp only [mergeAdj]
            rw [if_pos h]]
          exact ih (rs'.length + 1) (by simp at hlen; omega) _ (by simp)
        · rw [show mergeAdj (r :: s :: rs') = r :: mergeAdj (s :: rs') from by
            simp only [mergeAdj]
            rw [if_neg h]]
          obtain ⟨t, tl, he, hf⟩ := mergeAdj_cons_fmt rs'.length s rs' rfl
          rw [he]
          refine List.Chain'.cons ?_ ?_
          · rw [hf]
            exact h
          · rw [← he]
            exact ih (rs'.length + 1) (by simp at hlen; omega) _ (by simp)

theorem mergeAdj_of_chain :
    ∀ l : List RichRun, List.Chain' (fun a b => a.fmt ≠ b.fmt) l →
      mergeAdj l = l := by
  intro l
  induction l with
  | nil => intro _; simp [mergeAdj]
  | cons r rs ih =>
    intro hc
    cases rs with
    | nil => simp [mergeAdj]
    | cons s rs' =>
      rw [List.chain'_cons] at hc
      rw [show mergeAdj (r :: s :: rs') = r :: mergeAdj (s :: rs') from by
        simp only [mergeAdj]
        rw [if_neg hc.1]]
      rw [ih hc.2]

theorem mergeAdj_good :
    ∀ (n : ℕ) (l : List RichRun), l.length = n →
      (∀ r ∈ l, ∃ c ∈ r.text, ¬ c.isWhitespace) →
      ∀ r ∈ mergeAdj l, ∃ c ∈ r.text, ¬ c.isWhitespace := by
  intro n
  induction n using Nat.strong_induction_on with
  | _ n ih =>
    intro l hlen hgood
    cases l with
    | nil => simp [mergeAdj]
    | cons r rs =>
      cases rs with
      | nil =>
        simp only [show mergeAdj [r] = [r] from by simp [mergeAdj]]
        exact hgood
      | cons s rs' =>
        by_cases h : r.fmt = s.fmt
        · rw [show mergeAdj (r :: s :: rs') =
              mergeAdj ({ r with text := r.text ++ s.text } :: rs') from by
            simp only [mergeAdj]
            rw [if_pos h]]
          apply ih (rs'.length + 1) (by simp at hlen; omega) _ (by simp)
          intro x hx
          rcases List.mem_cons.mp hx with rfl | hx'
          · obtain ⟨c, hc, hcw⟩ := hgood r (by simp)
            exact ⟨c, List.mem_append_left _ hc, hcw⟩
          · exact hgood x (by simp [hx'])
        · rw [show mergeAdj (r :: s :: rs') = r :: mergeAdj (s :: rs') from by
            simp only [mergeAdj]
            rw [if_neg h]]
          intro x hx
          rcases List.mem_cons.mp hx with rfl | hx'
          · exact hgood x (by simp)
          · exact ih (rs'.length + 1) (by simp at hlen; omega) _ (by simp)
              (fun y hy => hgood y (by simp [List.mem_cons.mp hy])) x hx'

theorem modifyLastRun_cons_cons (f : RichRun → RichRun) (a b : RichRun)
    (l : List RichRun) :
    modifyLastRun f (a :: b :: l) = a :: modifyLastRun f (b :: l) := rfl

theorem modifyLastRun_ne_nil (f : RichRun → RichRun) (a : RichRun)
    (l : List RichRun) : modifyLastRun f (a :: l) ≠ [] := by
  cases l <;> simp [modifyLastRun]

theorem modifyLastRun_comp (f g : RichRun → RichRun) :
    ∀ l, modifyLastRun f (modifyLastRun g l) =
      modifyLastRun (fun x => f (g x)) l := by
  intro l
  induction l with
  | nil => rfl
  | cons a l ih =>
    cases l with
    | nil => rfl
    | cons b l' =>
      cases hm : modifyLastRun g (b :: l') with
      | nil => exact absurd hm (modifyLastRun_ne_nil g b l')
      | cons c tl =>
        calc modifyLastRun f (modifyLastRun g (a :: b :: l'))
            = modifyLastRun f (a :: c :: tl) := by
              rw [modifyLastRun_cons_cons, hm]
          _ = a :: modifyLastRun f (c :: tl) := rfl
          _ = a :: modifyLastRun f (modifyLastRun g (b :: l')) := by rw [hm]
          _ = a :: modifyLastRun (fun x => f (g x)) (b :: l') := by rw [ih]
          _ = modifyLastRun (fun x => f (g x)) (a :: b :: l') := rfl

theorem modifyLastRun_congr {f g : RichRun → RichRun} (h : ∀ x, f x = g x) :
    ∀ l, modifyLastRun f l = modifyLastRun g l := by
  intro l
  induction l with
  | nil => rfl
  | cons a l ih =>
    cases l with
    | nil => simp [modifyLastRun, h a]
    | cons b l' => rw [modifyLastRun_cons_cons, modifyLastRun_cons_cons, ih]

theorem map_fmt_modifyLastRun (f : RichRun → RichRun)
    (hf : ∀ x, (f x).fmt = x.fmt) :
    ∀ l, (modifyLastRun f l).map RichRun.fmt = l.map RichRun.fmt := by
  intro l
  induction l with
  | nil => rfl
  | cons a l ih =>
    cases l with
    | nil => simp [modifyLastRun, hf a]
    | cons b l' =>
      rw [modifyLastRun_cons_cons]
      simp only [List.map_cons]
      rw [ih]
      simp

theorem map_fmt_modifyHead (f : RichRun → RichRun)
    (hf : ∀ x, (f x).fmt = x.fmt) (l : List RichRun) :
    (l.modifyHead f).map RichRun.fmt = l.map RichRun.fmt := by
  cases l <;> simp [hf]

theorem modifyLastRun_good (f : RichRun → RichRun)
    (hf : ∀ x : RichRun, (∃ c ∈ x.text, ¬ c.isWhitespace) →
      ∃ c ∈ (f x).text, ¬ c.isWhitespace) :
    ∀ l, (∀ r ∈ l, ∃ c ∈ r.text, ¬ c.isWhitespace) →
      ∀ r ∈ modifyLastRun f l, ∃ c ∈ r.text, ¬ c.isWhitespace := by
  intro l
  induction l with
  | nil => intro _ r hr; cases hr
  | cons a l ih =>
    intro hgood r hr
    cases l with
    | nil =>
      simp only [modifyLastRun, List.mem_singleton] at hr
      subst hr
      exact hf a (hgood a (by simp))
    | cons b l' =>
      rw [modifyLastRun_cons_cons] at hr
      rcases List.mem_cons.mp hr with rfl | hr'
      · exact hgood r (by simp)
      · exact ih (fun x hx => hgood x (List.mem_cons_of_mem _ hx)) r hr'

theorem modifyHead_good (f : RichRun → RichRun)
    (hf : ∀ x : RichRun, (∃ c ∈ x.text, ¬ c.isWhitespace) →
      ∃ c ∈ (f x).text, ¬ c.isWhitespace) (l : List RichRun)
    (hgood : ∀ r ∈ l, ∃ c ∈ r.text, ¬ c.isWhitespace) :
    ∀ r ∈ l.modifyHead f, ∃ c ∈ r.text, ¬ c.isWhitespace := by
  cases l with
  | nil => intro r hr; cases hr
  | cons a l =>
    intro r hr
    rcases List.mem_cons.mp hr with rfl | hr'
    · exact hf a (hgood a (by simp))
    · exact hgood r (by simp [hr'])

theorem lstripRun_fmt (r : RichRun) : (lstripRun r).fmt = r.fmt := rfl

theorem rstripRun_fmt (r : RichRun) : (rstripRun r).fmt = r.fmt := rfl

theorem lstripRun_good {r : RichRun} (h : ∃ c ∈ r.text, ¬ c.isWhitespace) :
    ∃ c ∈ (lstripRun r).text, ¬ c.isWhitespace := exists_mem_pyLstrip h

theorem rstripRun_good {r : RichRun} (h : ∃ c ∈ r.text, ¬ c.isWhitespace) :
    ∃ c ∈ (rstripRun r).text, ¬ c.isWhitespace := exists_mem_pyRstrip h

theorem lstripRun_eq_of {r : RichRun} (h : pyLstrip r.text = r.text) :
    lstripRun r = r := by
  cases r
  simp only [lstripRun]
  simp only at h
  rw [h]

theorem rstripRun_eq_of {r : RichRun} (h : pyRstrip r.text = r.text) :
    rstripRun r = r := by
  cases r
  simp only [rstripRun]
  simp only at h
  rw [h]

theorem lstripRun_idem (r : RichRun) : lstripRun (lstripRun r) = lstripRun r :=
  lstripRun_eq_of (pyLstrip_idem _)

theorem rstripRun_idem (r : RichRun) : rstripRun (rstripRun r) = rstripRun r :=
  rstripRun_eq_of (pyRstrip_idem _)

/-- Trimming the ends of an already end-trimmed run list (whose runs all
contain a non-whitespace character) changes nothing. -/
theorem trim_trim (m : List RichRun)
    (hgoodm : ∀ r ∈ m, ∃ c ∈ r.text, ¬ c.isWhitespace) :
    modifyLastRun rstripRun
      ((modifyLastRun rstripRun (m.modifyHead lstripRun)).modifyHead
        lstripRun) =
      modifyLastRun rstripRun (m.modifyHead lstripRun) := by
  cases m with
  | nil => rfl
  | cons a rest =>
    cases rest with
    | nil =>
      have hga : ∃ c ∈ a.text, ¬ c.isWhitespace := hgoodm a (by simp)
      have hx : lstripRun (rstripRun (lstripRun a)) = rstripRun (lstripRun a) :=
        lstripRun_eq_of (pyLstrip_pyRstrip_pyLstrip hga)
      show [rstripRun (lstripRun (rstripRun (lstripRun a)))] =
        [rstripRun (lstripRun a)]
      rw [hx, rstripRun_idem]
    | cons b rest' =>
      cases hT : modifyLastRun rstripRun (b :: rest') with
      | nil => exact absurd hT (modifyLastRun_ne_nil _ _ _)
      | cons c tl =>
        have e1 : modifyLastRun rstripRun
            ((a :: b :: rest').modifyHead lstripRun) =
            lstripRun a :: modifyLastRun rstripRun (b :: rest') := by
          simp only [List.modifyHead_cons]
          exact modifyLastRun_cons_cons _ _ _ _
        rw [e1, hT]
        simp only [List.modifyHead_cons, lstripRun_idem]
        rw [modifyLastRun_cons_cons]
        congr 1
        rw [← hT, modifyLastRun_comp,
          modifyLastRun_congr rstripRun_idem]

/-- C4 amended: the merge step of `get_rich_text` (merge adjacent
equal-format runs, left-trim the first, right-trim the last, drop runs
left empty) is idempotent on every run sequence whose runs each contain
a non-whitespace character — exactly what `get_rich_text` guarantees by
skipping empty and whitespace-only strings before merging.  (On
arbitrary sequences it is not idempotent — see the counterexample.) -/
theorem mergeRuns_idempotent_on_nonblank :
    ∀ rs : List RichRun, (∀ r ∈ rs, ∃ c ∈ r.text, ¬ c.isWhitespace) →
      mergeRuns (mergeRuns rs) = mergeRuns rs := by
  intro rs h
  have hgoodm : ∀ r ∈ mergeAdj rs, ∃ c ∈ r.text, ¬ c.isWhitespace :=
    mergeAdj_good rs.length rs rfl h
  have hchain : List.Chain' (fun a b => a.fmt ≠ b.fmt) (mergeAdj rs) :=
    mergeAdj_chain rs.length rs rfl
  have hgood2 : ∀ r ∈ modifyLastRun rstripRun
      ((mergeAdj rs).modifyHead lstripRun), ∃ c ∈ r.text, ¬ c.isWhitespace :=
    modifyLastRun_good _ (fun _ => rstripRun_good) _
      (modifyHead_good _ (fun _ => lstripRun_good) _ hgoodm)
  have hfilter : ∀ l : List RichRun,
      (∀ r ∈ l, ∃ c ∈ r.text, ¬ c.isWhitespace) →
      l.filter (fun r => r.text ≠ []) = l := by
    intro l hl
    rw [List.filter_eq_self]
    intro r hr
    obtain ⟨c, hc, -⟩ := hl r hr
    exact decide_eq_true fun hnil => by rw [hnil] at hc; cases hc
  have hround1 : mergeRuns rs =
      modifyLastRun rstripRun ((mergeAdj rs).modifyHead lstripRun) := by
    simp only [mergeRuns]
    rw [mergeLoop_nil_eq]
    exact hfilter _ hgood2
  rw [hround1]
  have hmap2 : (modifyLastRun rstripRun
      ((mergeAdj rs).modifyHead lstripRun)).map RichRun.fmt =
      (mergeAdj rs).map RichRun.fmt := by
    rw [map_fmt_modifyLastRun _ rstripRun_fmt, map_fmt_modifyHead _ lstripRun_fmt]
  have hchain2 : List.Chain' (fun a b => a.fmt ≠ b.fmt)
      (modifyLastRun rstripRun ((mergeAdj rs).modifyHead lstripRun)) := by
    have h1 : List.Chain' Ne ((mergeAdj rs).map RichRun.fmt) :=
      (List.chain'_map _).mpr hchain
    rw [← hmap2] at h1
    exact (List.chain'_map _).mp h1
  simp only [mergeRuns]
  rw [mergeLoop_nil_eq, mergeAdj_of_chain _ hchain2,
    trim_trim (mergeAdj rs) hgoodm]
  exact hfilter _ hgood2

/-- C4 counterexample: on the run sequence
`[{" ", bold}, {" x", plain}]` one merge yields `[{" x"}]` (the
whitespace-only first run is trimmed away, exposing untrimmed leading
whitespace on the new first run), while a second merge yields
`[{"x"}]`, so the merge step is not idempotent on arbitrary run
sequences. -/
theorem mergeRuns_not_idempotent :
    mergeRuns (mergeRuns
      [⟨[' '], true, false, none⟩, ⟨[' ', 'x'], false, false, none⟩]) ≠
    mergeRuns
      [⟨[' '], true, false, none⟩, ⟨[' ', 'x'], false, false, none⟩] := by
  decide

/-- Witness for C4 (amended) on a one-run sequence. -/
theorem mergeRuns_idempotent_on_nonblank_witness :
    (∀ r ∈ [(⟨[' ', 'a'], true, false, none⟩ : RichRun)],
      ∃ c ∈ r.text, ¬ c.isWhitespace) ∧
    mergeRuns (mergeRuns [(⟨[' ', 'a'], true, false, none⟩ : RichRun)]) =
      mergeRuns [(⟨[' ', 'a'], true, false, none⟩ : RichRun)] :=
  ⟨by decide, mergeRuns_idempotent_on_nonblank _ (by decide)⟩

end Html2Pptx
